import Mathlib

/-!
Verification of the risk-interval extraction logic of the InjuryRiskDetection
repository.

The repository's risk-checking routines
(`calculate_injury_risks` in `muscle_forces_activations_risk.py`,
`extract_motion_risk` in `posture_alignment_risk.py`,
`check_kinematic_injury_risk` in `kinematic_data_risk.py`) all contain the
same inline algorithm: from a boolean threshold mask over a time series,
`np.where(mask)[0]` yields the sorted list of violating sample indices, an
inline loop groups consecutive indices into runs (`risk_periods`), and each
run is reported with `start_time = time[period[0]]`,
`end_time = time[period[-1]]`, `Duration = end_time - start_time`, and a peak
value (`max`, `min`, or `max(abs(...))` depending on the rule).

The definitions below are a direct shallow embedding of that code:
`riskyIndices` embeds `np.where(pred(values))[0]`, `groupConsecAux` /
`groupConsecutive` embed the inline grouping loop verbatim (same comparison
`risky_indices[i] == risky_indices[i-1] + 1`, same accumulator discipline),
`mkInterval` / `extractLoop` / `calculate_injury_risks` embed the reporting
loop, with `Option` modelling a propagating Python `IndexError` from an
out-of-range time lookup.
-/

namespace InjuryRisk

/-- Embedding of `np.where(pred(values))[0]`: the sorted list of indices of
`vs` whose element satisfies the boolean predicate `p`. -/
def riskyIndices {α : Type} (p : α → Bool) (vs : List α) : List Nat :=
  (List.range vs.length).filter (fun i =>
    match vs.get? i with
    | some v => p v
    | none => false)

/-- Embedding of the inline grouping loop
`for i in range(1, len(risky_indices)): if risky_indices[i] == risky_indices[i-1] + 1 ...`:
`prev` is the previously scanned index, `current` is `current_period`, and
`acc` is `risk_periods`. -/
def groupConsecAux (prev : Nat) (current : List Nat) (acc : List (List Nat)) :
    List Nat → List (List Nat)
  | [] => acc ++ [current]
  | x :: xs =>
    if x = prev + 1 then groupConsecAux x (current ++ [x]) acc xs
    else groupConsecAux x [x] (acc ++ [current]) xs

/-- The grouping loop on the full index list: `current_period = [risky_indices[0]]`
to start; an empty index list produces no periods (the source skips the whole
block when `len(risky_indices) == 0`). -/
def groupConsecutive : List Nat → List (List Nat)
  | [] => []
  | x :: xs => groupConsecAux x [x] [] xs

/-- Peak-selection policy of a threshold rule: `maxSigned` for `>` rules
(`.max()` in the source), `minSigned` for `<` rules (`.min()`), `absMax` for
magnitude rules (`np.max(np.abs(...))`). -/
inductive PeakPolicy : Type
  | maxSigned : PeakPolicy
  | minSigned : PeakPolicy
  | absMax : PeakPolicy
deriving DecidableEq, Repr

/-- `np.max` over a nonempty list (the default for `[]` is never used: the
source only applies it to nonempty periods). -/
def listMax : List Int → Int
  | [] => 0
  | x :: xs => xs.foldl max x

/-- `np.min` over a nonempty list. -/
def listMin : List Int → Int
  | [] => 0
  | x :: xs => xs.foldl min x

/-- The values of the series at the indices of a period
(`values[period]` / `series.iloc[period]`). -/
def valuesAt (vals : List Int) (period : List Nat) : List Int :=
  period.map (fun i => vals.getD i 0)

/-- Peak value of a run under a policy: `gastroc_forces.iloc[period].max()`,
`hq_ratio.iloc[period].min()`, `np.max(np.abs(trunk_lean[period]))`. -/
def peakOf : PeakPolicy → List Int → Int
  | PeakPolicy.maxSigned, l => listMax l
  | PeakPolicy.minSigned, l => listMin l
  | PeakPolicy.absMax, l => listMax (l.map (fun v => |v|))

/-- A reported risk interval: `start_time`, `end_time`,
`Duration = end_time - start_time`, and the peak value of the period. -/
structure RiskInterval : Type where
  start_time : Int
  end_time : Int
  duration : Int
  peak : Int
deriving DecidableEq, Repr

/-- Reporting of one period: `start_time = time_array[period[0]]`,
`end_time = time_array[period[-1]]`. `none` models the Python `IndexError`
raised when a time lookup is out of range. -/
def mkInterval (time : List Int) (vals : List Int) (pol : PeakPolicy)
    (period : List Nat) : Option RiskInterval :=
  match period with
  | [] => none
  | i :: rest =>
    match time.get? i, time.get? ((i :: rest).getLast (List.cons_ne_nil i rest)) with
    | some s, some e => some ⟨s, e, e - s, peakOf pol (valuesAt vals (i :: rest))⟩
    | _, _ => none

/-- The reporting loop `for period in risk_periods: risk_metrics.append(...)`;
a raised `IndexError` (`none`) aborts the whole call. -/
def extractLoop (time : List Int) (vals : List Int) (pol : PeakPolicy) :
    List (List Nat) → Option (List RiskInterval)
  | [] => some []
  | P :: Ps =>
    match mkInterval time vals pol P with
    | none => none
    | some iv =>
      match extractLoop time vals pol Ps with
      | none => none
      | some ivs => some (iv :: ivs)

/-- The complete per-rule pipeline of `calculate_injury_risks` (and of the
identical inline blocks of `extract_motion_risk`): mask, `np.where`, group
consecutive indices, report each period. -/
def calculate_injury_risks (vals : List Int) (time : List Int)
    (pol : PeakPolicy) (p : Int → Bool) : Option (List RiskInterval) :=
  extractLoop time vals pol (groupConsecutive (riskyIndices p vals))

/-- Two periods separated by a gap: every index of `P` precedes every index
of `Q` by at least two, i.e. an index where the mask is false lies between. -/
def periodGap (P Q : List Nat) : Prop :=
  ∀ a ∈ P, ∀ b ∈ Q, a + 1 < b

/-- The three overall risk levels produced by the summary code. -/
inductive RiskLevel : Type
  | Low : RiskLevel
  | Moderate : RiskLevel
  | High : RiskLevel
deriving DecidableEq, Repr

/-- Overall risk level computed by `summarize_injury_risks`
(`muscle_forces_activations_risk.py`, lines 390-415), as a function of the
list of risk durations: empty `risk_metrics` short-circuits to "Low",
otherwise `len(risk_metrics) > 5 or total_duration > 2.0` gives "High",
`len(risk_metrics) > 2 or total_duration > 1.0` gives "Moderate", else "Low". -/
def summarize_injury_risks_level (durations : List ℚ) : RiskLevel :=
  if durations.isEmpty then RiskLevel.Low
  else if 5 < durations.length ∨ (2.0 : ℚ) < durations.sum then RiskLevel.High
  else if 2 < durations.length ∨ (1.0 : ℚ) < durations.sum then RiskLevel.Moderate
  else RiskLevel.Low

/-- Overall risk level computed in the summary section of
`extract_motion_risk` (`posture_alignment_risk.py`, lines 546-591), as a
function of the durations of the valid (non-error) risks: empty
`valid_risks` takes the else-branch producing "Low", otherwise the same
count/duration thresholds as above. -/
def extract_motion_risk_level (valid_durations : List ℚ) : RiskLevel :=
  if valid_durations.isEmpty then RiskLevel.Low
  else if 5 < valid_durations.length ∨ (2.0 : ℚ) < valid_durations.sum then RiskLevel.High
  else if 2 < valid_durations.length ∨ (1.0 : ℚ) < valid_durations.sum then RiskLevel.Moderate
  else RiskLevel.Low

/-- The overall-risk-level classification exactly as the claim words it:
"High" when count > 5 or duration > 2.0 s, otherwise "Moderate" when
count > 2 or duration > 1.0 s, otherwise "Low". -/
def claimed_risk_level (count : Nat) (total_duration : ℚ) : RiskLevel :=
  if 5 < count ∨ (2.0 : ℚ) < total_duration then RiskLevel.High
  else if 2 < count ∨ (1.0 : ℚ) < total_duration then RiskLevel.Moderate
  else RiskLevel.Low

/-- The gradient values `np.gradient(f, x)` computes when its checks pass:
second-order central differences at interior points (non-uniform spacing
formula with coefficients `-hd/(hs*(hd+hs))`, `(hd-hs)/(hd*hs)`,
`hs/(hd*(hd+hs))` where `hs = x[i]-x[i-1]`, `hd = x[i+1]-x[i]`) and
first-order one-sided differences at the two edges (`edge_order=1`). -/
def np_gradient_core (f x : List ℚ) : List ℚ :=
  (List.range f.length).map (fun i =>
    if i = 0 then (f.getD 1 0 - f.getD 0 0) / (x.getD 1 0 - x.getD 0 0)
    else if i = f.length - 1 then
      (f.getD i 0 - f.getD (i - 1) 0) / (x.getD i 0 - x.getD (i - 1) 0)
    else
      let hs := x.getD i 0 - x.getD (i - 1) 0
      let hd := x.getD (i + 1) 0 - x.getD i 0
      (-(hd / (hs * (hd + hs)))) * f.getD (i - 1) 0
        + ((hd - hs) / (hd * hs)) * f.getD i 0
        + (hs / (hd * (hd + hs))) * f.getD (i + 1) 0)

/-- `np.gradient(f, x)`: raises (`Except.error`) on a coordinate array of
mismatched length or on fewer than `edge_order + 1 = 2` samples, otherwise
returns the gradient array. -/
def np_gradient (f x : List ℚ) : Except String (List ℚ) :=
  if f.length ≠ x.length then
    Except.error "invalid number of arguments"
  else if f.length < 2 then
    Except.error "Shape of array too small to calculate a numerical gradient"
  else
    Except.ok (np_gradient_core f x)

/-- `compute_velocity_and_acceleration` from `kinematic_data_risk.py`:
raises `ValueError` when `len(angles) < min_data_points` (default 3),
otherwise returns `np.gradient(angles, time)` and the gradient of that. -/
def compute_velocity_and_acceleration (angles time : List ℚ)
    (min_data_points : Nat := 3) : Except String (List ℚ × List ℚ) :=
  if angles.length < min_data_points then
    Except.error "Data is too short. At least 3 data points are required."
  else
    match np_gradient angles time with
    | Except.error e => Except.error e
    | Except.ok velocities =>
      match np_gradient velocities time with
      | Except.error e => Except.error e
      | Except.ok accelerations => Except.ok (velocities, accelerations)

/-- `quad_activation.replace(0, np.nan)` from `calculate_injury_risks`
(`muscle_forces_activations_risk.py`, line 216): `none` models `np.nan`. -/
def replace_zero_with_nan (l : List ℚ) : List (Option ℚ) :=
  l.map (fun v => if v = 0 then none else some v)

/-- `hq_ratio = ham_activation / quad_activation` after the zero replacement:
elementwise float division where dividing by NaN yields NaN (`none`). -/
def hq_series (ham quad : List ℚ) : List (Option ℚ) :=
  List.zipWith (fun h q => Option.map (fun qv => h / qv) q) ham
    (replace_zero_with_nan quad)

/-- The mask `hq_ratio < hq_threshold` with `hq_threshold = 0.6`: a NaN
(`none`) sample compares false, exactly as IEEE-754 NaN does in numpy. -/
def hq_below_threshold : Option ℚ → Bool
  | none => false
  | some v => decide (v < (0.6 : ℚ))

lemma groupConsecAux_acc (xs : List Nat) : ∀ (prev : Nat) (cur : List Nat)
    (acc : List (List Nat)),
    groupConsecAux prev cur acc xs = acc ++ groupConsecAux prev cur [] xs := by
  induction xs with
  | nil => intro prev cur acc; simp [groupConsecAux]
  | cons x xs ih =>
    intro prev cur acc
    by_cases hx : x = prev + 1
    · simp only [groupConsecAux, if_pos hx]
      exact ih x (cur ++ [x]) acc
    · simp only [groupConsecAux, if_neg hx]
      rw [ih x [x] (acc ++ [cur]), ih x [x] ([] ++ [cur])]
      simp

lemma run_le_getLast : ∀ {l : List Nat} {m : Nat},
    List.Chain' (fun a b => b = a + 1) l → l.getLast? = some m → ∀ a ∈ l, a ≤ m := by
  intro l
  induction l with
  | nil => intro m _ _ a ha; cases ha
  | cons x t ih =>
    intro m hch hlast a ha
    cases t with
    | nil =>
      rw [List.getLast?_singleton, Option.some_inj] at hlast
      rw [List.mem_singleton] at ha
      omega
    | cons y t =>
      rw [List.chain'_cons] at hch
      rw [List.getLast?_cons_cons] at hlast
      rcases List.mem_cons.mp ha with h | h
      · have hy : y ≤ m := ih hch.2 hlast y (List.mem_cons_self y t)
        omega
      · exact ih hch.2 hlast a h

lemma groupAux_spec : ∀ (xs : List Nat) (prev : Nat) (cur : List Nat),
    cur ≠ [] →
    cur.getLast? = some prev →
    List.Chain' (fun a b => b = a + 1) cur →
    List.Pairwise (· < ·) (prev :: xs) →
    (groupConsecAux prev cur [] xs).flatten = cur ++ xs ∧
    (∀ P ∈ groupConsecAux prev cur [] xs,
      P ≠ [] ∧ List.Chain' (fun a b => b = a + 1) P) ∧
    List.Pairwise periodGap (groupConsecAux prev cur [] xs) ∧
    (∀ i, i ∈ cur ++ xs → i + 1 ∈ cur ++ xs →
      ∃ P, P ∈ groupConsecAux prev cur [] xs ∧ i ∈ P ∧ i + 1 ∈ P) := by
  intro xs
  induction xs with
  | nil =>
    intro prev cur hne hlast hch _
    simp only [groupConsecAux, List.nil_append, List.append_nil]
    refine ⟨by simp, ?_, ?_, ?_⟩
    · intro P hP; rw [List.mem_singleton] at hP; subst hP; exact ⟨hne, hch⟩
    · exact List.pairwise_singleton _ _
    · intro i hi hi1; exact ⟨cur, List.mem_singleton_self _, hi, hi1⟩
  | cons x xs ih =>
    intro prev cur hne hlast hch hsort
    have hpx : prev < x := List.rel_of_pairwise_cons hsort (List.mem_cons_self x xs)
    have hsort' : List.Pairwise (· < ·) (x :: xs) := hsort.of_cons
    by_cases hx : x = prev + 1
    · have hres : groupConsecAux prev cur [] (x :: xs)
          = groupConsecAux x (cur ++ [x]) [] xs := by
        simp only [groupConsecAux, if_pos hx]
      have hne' : cur ++ [x] ≠ [] := by simp
      have hlast' : (cur ++ [x]).getLast? = some x := List.getLast?_concat _
      have hch' : List.Chain' (fun a b => b = a + 1) (cur ++ [x]) := by
        refine hch.append (List.chain'_singleton x) ?_
        intro u hu v hv
        rw [hlast] at hu
        simp only [Option.mem_def, Option.some_inj, List.head?_cons] at hu hv
        subst hu; subst hv; exact hx
      obtain ⟨hjoin, hgood, hpair, hmerge⟩ := ih x (cur ++ [x]) hne' hlast' hch' hsort'
      have harr : (cur ++ [x]) ++ xs = cur ++ (x :: xs) := by simp
      rw [hres]
      refine ⟨by rw [hjoin, harr], hgood, hpair, ?_⟩
      intro i hi hi1
      exact hmerge i (by rw [harr]; exact hi) (by rw [harr]; exact hi1)
    · have hpx1 : prev + 1 < x :=
        lt_of_le_of_ne (Nat.succ_le_of_lt hpx) (fun h => hx h.symm)
      have hres : groupConsecAux prev cur [] (x :: xs)
          = cur :: groupConsecAux x [x] [] xs := by
        simp only [groupConsecAux, if_neg hx]
        rw [groupConsecAux_acc]
        simp
      obtain ⟨hjoin, hgood, hpair, hmerge⟩ :=
        ih x [x] (by simp) (by simp) (List.chain'_singleton x) hsort'
      have hcur_le : ∀ a ∈ cur, a ≤ prev := run_le_getLast hch hlast
      have htail_ge : ∀ b ∈ x :: xs, x ≤ b := by
        intro b hb
        rcases List.mem_cons.mp hb with h | h
        · exact le_of_eq h.symm
        · exact le_of_lt (List.rel_of_pairwise_cons hsort' h)
      have hcore_mem : ∀ Q ∈ groupConsecAux x [x] [] xs, ∀ b ∈ Q, b ∈ x :: xs := by
        intro Q hQ b hb
        have hbj : b ∈ (groupConsecAux x [x] [] xs).flatten :=
          List.mem_flatten.mpr ⟨Q, hQ, hb⟩
        rw [hjoin] at hbj
        simpa using hbj
      rw [hres]
      refine ⟨?_, ?_, ?_, ?_⟩
      · rw [List.flatten_cons, hjoin]; simp
      · intro P hP
        rcases List.mem_cons.mp hP with h | h
        · subst h; exact ⟨hne, hch⟩
        · exact hgood P h
      · rw [List.pairwise_cons]
        refine ⟨?_, hpair⟩
        intro Q hQ a ha b hb
        have h1 : a ≤ prev := hcur_le a ha
        have h2 : x ≤ b := htail_ge b (hcore_mem Q hQ b hb)
        omega
      · intro i hi hi1
        rcases List.mem_append.mp hi1 with h1 | h1
        · have hi1p : i + 1 ≤ prev := hcur_le _ h1
          have hicur : i ∈ cur := by
            rcases List.mem_append.mp hi with h | h
            · exact h
            · exact absurd (htail_ge i h) (by omega)
          exact ⟨cur, List.mem_cons_self _ _, hicur, h1⟩
        · have hitail : i ∈ x :: xs := by
            rcases List.mem_append.mp hi with h | h
            · have hip : i ≤ prev := hcur_le _ h
              have hxb : x ≤ i + 1 := htail_ge _ h1
              omega
            · exact h
          obtain ⟨P, hP, hiP, hi1P⟩ :=
            hmerge i (by simpa using hitail) (by simpa using h1)
          exact ⟨P, List.mem_cons_of_mem _ hP, hiP, hi1P⟩

lemma groupConsecutive_spec (l : List Nat) (hsort : List.Pairwise (· < ·) l) :
    (groupConsecutive l).flatten = l ∧
    (∀ P ∈ groupConsecutive l, P ≠ [] ∧ List.Chain' (fun a b => b = a + 1) P) ∧
    List.Pairwise periodGap (groupConsecutive l) ∧
    (∀ i, i ∈ l → i + 1 ∈ l → ∃ P, P ∈ groupConsecutive l ∧ i ∈ P ∧ i + 1 ∈ P) := by
  cases l with
  | nil => simp [groupConsecutive]
  | cons x xs =>
    have h := groupAux_spec xs x [x] (by simp) (by simp)
      (List.chain'_singleton x) hsort
    simpa [groupConsecutive] using h

lemma mem_riskyIndices {α : Type} {p : α → Bool} {vs : List α} {i : Nat} :
    i ∈ riskyIndices p vs ↔ ∃ v, vs.get? i = some v ∧ p v = true := by
  unfold riskyIndices
  rw [List.mem_filter, List.mem_range]
  constructor
  · rintro ⟨hlt, hmatch⟩
    cases hv : vs.get? i with
    | none => rw [hv] at hmatch; simp at hmatch
    | some v =>
      rw [hv] at hmatch
      exact ⟨v, rfl, hmatch⟩
  · rintro ⟨v, hv, hp⟩
    refine ⟨(List.get?_eq_some.mp hv).1, ?_⟩
    rw [hv]
    exact hp

lemma riskyIndices_pairwise {α : Type} (p : α → Bool) (vs : List α) :
    List.Pairwise (· < ·) (riskyIndices p vs) :=
  List.Pairwise.filter _ (List.pairwise_lt_range _)

lemma foldl_max_spec (xs : List Int) : ∀ a : Int,
    (xs.foldl max a = a ∨ xs.foldl max a ∈ xs) ∧ a ≤ xs.foldl max a ∧
    ∀ v ∈ xs, v ≤ xs.foldl max a := by
  induction xs with
  | nil => intro a; simp
  | cons x xs ih =>
    intro a
    obtain ⟨hmem, hle, hall⟩ := ih (max a x)
    simp only [List.foldl_cons]
    refine ⟨?_, ?_, ?_⟩
    · rcases hmem with h | h
      · rcases max_choice a x with hc | hc
        · left; rw [h, hc]
        · right; rw [h, hc]; exact List.mem_cons_self x xs
      · right; exact List.mem_cons_of_mem _ h
    · exact le_trans (le_max_left a x) hle
    · intro v hv
      rcases List.mem_cons.mp hv with h | h
      · subst h; exact le_trans (le_max_right a v) hle
      · exact hall v h

lemma foldl_min_spec (xs : List Int) : ∀ a : Int,
    (xs.foldl min a = a ∨ xs.foldl min a ∈ xs) ∧ xs.foldl min a ≤ a ∧
    ∀ v ∈ xs, xs.foldl min a ≤ v := by
  induction xs with
  | nil => intro a; simp
  | cons x xs ih =>
    intro a
    obtain ⟨hmem, hle, hall⟩ := ih (min a x)
    simp only [List.foldl_cons]
    refine ⟨?_, ?_, ?_⟩
    · rcases hmem with h | h
      · rcases min_choice a x with hc | hc
        · left; rw [h, hc]
        · right; rw [h, hc]; exact List.mem_cons_self x xs
      · right; exact List.mem_cons_of_mem _ h
    · exact le_trans hle (min_le_left a x)
    · intro v hv
      rcases List.mem_cons.mp hv with h | h
      · subst h; exact le_trans hle (min_le_right a v)
      · exact hall v h

lemma listMax_spec {l : List Int} (h : l ≠ []) :
    listMax l ∈ l ∧ ∀ v ∈ l, v ≤ listMax l := by
  cases l with
  | nil => exact absurd rfl h
  | cons x xs =>
    obtain ⟨hmem, hle, hall⟩ := foldl_max_spec xs x
    simp only [listMax]
    refine ⟨?_, ?_⟩
    · rcases hmem with h | h
      · rw [h]; exact List.mem_cons_self _ _
      · exact List.mem_cons_of_mem _ h
    · intro v hv
      rcases List.mem_cons.mp hv with h | h
      · subst h; exact hle
      · exact hall v h

lemma listMin_spec {l : List Int} (h : l ≠ []) :
    listMin l ∈ l ∧ ∀ v ∈ l, listMin l ≤ v := by
  cases l with
  | nil => exact absurd rfl h
  | cons x xs =>
    obtain ⟨hmem, hle, hall⟩ := foldl_min_spec xs x
    simp only [listMin]
    refine ⟨?_, ?_⟩
    · rcases hmem with h | h
      · rw [h]; exact List.mem_cons_self _ _
      · exact List.mem_cons_of_mem _ h
    · intro v hv
      rcases List.mem_cons.mp hv with h | h
      · subst h; exact hle
      · exact hall v h

lemma extractLoop_eq_none_iff (time vals : List Int) (pol : PeakPolicy) :
    ∀ Ps, extractLoop time vals pol Ps = none ↔
      ∃ P ∈ Ps, mkInterval time vals pol P = none := by
  intro Ps
  induction Ps with
  | nil => simp [extractLoop]
  | cons P Ps ih =>
    cases hP : mkInterval time vals pol P with
    | none =>
      simp only [extractLoop, hP]
      exact iff_of_true trivial ⟨P, List.mem_cons_self P Ps, hP⟩
    | some iv =>
      cases hL : extractLoop time vals pol Ps with
      | none =>
        simp only [extractLoop, hP, hL]
        obtain ⟨Q, hQ, hQn⟩ := ih.mp hL
        exact iff_of_true trivial ⟨Q, List.mem_cons_of_mem _ hQ, hQn⟩
      | some ivs =>
        simp only [extractLoop, hP, hL]
        apply iff_of_false (by simp)
        rintro ⟨Q, hQ, hQn⟩
        rcases List.mem_cons.mp hQ with h | h
        · subst h; rw [hP] at hQn; cases hQn
        · have := ih.mpr ⟨Q, h, hQn⟩
          rw [hL] at this; cases this

lemma mkInterval_eq_none_iff (time vals : List Int) (pol : PeakPolicy)
    {P : List Nat} (hne : P ≠ []) (hrun : List.Chain' (fun a b => b = a + 1) P) :
    mkInterval time vals pol P = none ↔ ∃ j ∈ P, time.length ≤ j := by
  cases P with
  | nil => exact absurd rfl hne
  | cons i rest =>
    have hlast? : (i :: rest).getLast? =
        some ((i :: rest).getLast (List.cons_ne_nil i rest)) :=
      List.getLast?_eq_getLast _ _
    have hall_le : ∀ a ∈ i :: rest, a ≤ (i :: rest).getLast (List.cons_ne_nil i rest) :=
      run_le_getLast hrun hlast?
    have hlast_mem : (i :: rest).getLast (List.cons_ne_nil i rest) ∈ i :: rest :=
      List.getLast_mem _
    constructor
    · intro hnone
      cases h1 : time.get? i with
      | none =>
        exact ⟨i, List.mem_cons_self i rest, List.get?_eq_none.mp h1⟩
      | some s =>
        cases h2 : time.get? ((i :: rest).getLast (List.cons_ne_nil i rest)) with
        | none =>
          exact ⟨_, hlast_mem, List.get?_eq_none.mp h2⟩
        | some e =>
          rw [mkInterval, h1, h2] at hnone
          cases hnone
    · rintro ⟨j, hj, hlen⟩
      have hlastlen : time.length ≤ (i :: rest).getLast (List.cons_ne_nil i rest) :=
        le_trans hlen (hall_le j hj)
      have h2 : time.get? ((i :: rest).getLast (List.cons_ne_nil i rest)) = none :=
        List.get?_eq_none.mpr hlastlen
      cases h1 : time.get? i with
      | none => rw [mkInterval, h1]
      | some s => rw [mkInterval, h1, h2]

lemma get?_zipWith_eq {α β γ : Type} (f : α → β → γ) :
    ∀ (l₁ : List α) (l₂ : List β) (i : Nat),
      (List.zipWith f l₁ l₂).get? i =
        match l₁.get? i, l₂.get? i with
        | some a, some b => some (f a b)
        | _, _ => none := by
  intro l₁
  induction l₁ with
  | nil => intro l₂ i; cases l₂ <;> cases i <;> simp
  | cons a l₁ ih =>
    intro l₂ i
    cases l₂ with
    | nil => cases i <;> simp
    | cons b l₂ =>
      cases i with
      | zero => simp
      | succ n => simpa using ih l₂ n

lemma np_gradient_ok (f x : List ℚ) (hlen : f.length = x.length)
    (h2 : 2 ≤ f.length) :
    np_gradient f x = Except.ok (np_gradient_core f x) ∧
    (np_gradient_core f x).length = f.length := by
  constructor
  · unfold np_gradient
    rw [if_neg (not_not_intro hlen), if_neg (by omega)]
  · unfold np_gradient_core
    simp

/-- C1: for every boolean risk mask over an ordered series, an index lies in
the union of the returned risk periods exactly when the threshold predicate
holds at it, and no returned period contains an index where the predicate is
false. -/
theorem C1_interval_union_exact {α : Type} (p : α → Bool) (vs : List α) :
    (∀ i, i ∈ (groupConsecutive (riskyIndices p vs)).flatten ↔
      ∃ v, vs.get? i = some v ∧ p v = true) ∧
    ∀ P ∈ groupConsecutive (riskyIndices p vs), ∀ j ∈ P,
      ∃ v, vs.get? j = some v ∧ p v = true := by
  obtain ⟨hjoin, -, -, -⟩ := groupConsecutive_spec _ (riskyIndices_pairwise p vs)
  constructor
  · intro i
    rw [hjoin, mem_riskyIndices]
  · intro P hP j hj
    have hjf : j ∈ (groupConsecutive (riskyIndices p vs)).flatten :=
      List.mem_flatten.mpr ⟨P, hP, hj⟩
    rw [hjoin, mem_riskyIndices] at hjf
    exact hjf

theorem C1_interval_union_exact_witness :
    (0 : Nat) ∈ (groupConsecutive
      (riskyIndices (fun v : Int => decide (10 < v)) [11, 1])).flatten :=
  ((C1_interval_union_exact (fun v : Int => decide (10 < v)) [11, 1]).1 0).mpr
    ⟨11, rfl, rfl⟩

/-- C2: the returned risk periods are nonempty maximal runs of adjacent
indices (each period steps by exactly one; adjacent risky indices i and i+1
always land in one common period; consecutive periods are separated by a gap
of at least one non-risky index, so periods are pairwise non-overlapping and
in ascending scan order), and grouping uses only index adjacency. -/
theorem C2_intervals_maximal_disjoint_ordered {α : Type} (p : α → Bool)
    (vs : List α) :
    (∀ P ∈ groupConsecutive (riskyIndices p vs),
      P ≠ [] ∧ List.Chain' (fun a b => b = a + 1) P) ∧
    List.Pairwise periodGap (groupConsecutive (riskyIndices p vs)) ∧
    ∀ i, i ∈ riskyIndices p vs → i + 1 ∈ riskyIndices p vs →
      ∃ P, P ∈ groupConsecutive (riskyIndices p vs) ∧ i ∈ P ∧ i + 1 ∈ P := by
  obtain ⟨-, hgood, hpair, hmerge⟩ :=
    groupConsecutive_spec _ (riskyIndices_pairwise p vs)
  exact ⟨hgood, hpair, hmerge⟩

theorem C2_intervals_maximal_disjoint_ordered_witness :
    ∃ P, P ∈ groupConsecutive
        (riskyIndices (fun v : Int => decide (10 < v)) [11, 12]) ∧
      0 ∈ P ∧ 0 + 1 ∈ P :=
  (C2_intervals_maximal_disjoint_ordered (fun v : Int => decide (10 < v))
    [11, 12]).2.2 0 (by decide) (by decide)

/-- C3 counterexample: for a magnitude rule the code reports
`np.max(np.abs(values[period]))`, which discards the sign: on the
single-sample period with value -20 the reported peak is 20, which is not a
sample of the run with its original sign preserved. -/
theorem C3_counterexample_abs_peak_sign :
    peakOf PeakPolicy.absMax (valuesAt [-20] [0]) = 20 ∧
    peakOf PeakPolicy.absMax (valuesAt [-20] [0]) ∉ valuesAt [-20] [0] := by
  decide

/-- C3 amended: for greater-than rules the reported peak is the maximum
signed value of the run; for less-than rules the minimum signed value; for
magnitude rules it is the maximum absolute magnitude over the run, reported
as a non-negative magnitude with the sign discarded. -/
theorem C3_peak_policy_amended (vals : List Int) (period : List Nat)
    (hne : period ≠ []) :
    (peakOf PeakPolicy.maxSigned (valuesAt vals period) ∈ valuesAt vals period ∧
      ∀ v ∈ valuesAt vals period,
        v ≤ peakOf PeakPolicy.maxSigned (valuesAt vals period)) ∧
    (peakOf PeakPolicy.minSigned (valuesAt vals period) ∈ valuesAt vals period ∧
      ∀ v ∈ valuesAt vals period,
        peakOf PeakPolicy.minSigned (valuesAt vals period) ≤ v) ∧
    (∃ v ∈ valuesAt vals period,
        peakOf PeakPolicy.absMax (valuesAt vals period) = |v|) ∧
    ∀ v ∈ valuesAt vals period,
      |v| ≤ peakOf PeakPolicy.absMax (valuesAt vals period) := by
  have hvne : valuesAt vals period ≠ [] := by
    cases period with
    | nil => exact absurd rfl hne
    | cons i rest => simp [valuesAt]
  have habsne : (valuesAt vals period).map (fun v => |v|) ≠ [] := by
    simpa using hvne
  obtain ⟨hmaxmem, hmaxle⟩ := listMax_spec hvne
  obtain ⟨hminmem, hminle⟩ := listMin_spec hvne
  obtain ⟨habsmem, habsle⟩ := listMax_spec habsne
  refine ⟨⟨hmaxmem, hmaxle⟩, ⟨hminmem, hminle⟩, ?_, ?_⟩
  · obtain ⟨v, hv, hveq⟩ := List.mem_map.mp habsmem
    exact ⟨v, hv, hveq.symm⟩
  · intro v hv
    exact habsle _ (List.mem_map.mpr ⟨v, hv, rfl⟩)

theorem C3_peak_policy_amended_witness :
    peakOf PeakPolicy.maxSigned (valuesAt [3, -7] [0, 1]) ∈
      valuesAt [3, -7] [0, 1] :=
  (C3_peak_policy_amended [3, -7] [0, 1] (by decide)).1.1

/-- C4 counterexample: with values of length 1 and times of length 2 the
lengths mismatch, yet the extraction silently returns an interval list
instead of signalling a usage error. -/
theorem C4_counterexample_mismatch_silent :
    ([5] : List Int).length ≠ ([0, 1] : List Int).length ∧
    calculate_injury_risks [5] [0, 1] PeakPolicy.maxSigned
      (fun v => decide (3 < v)) =
      some [{ start_time := 0, end_time := 0, duration := 0, peak := 5 }] := by
  decide

/-- C4 amended: the extraction never validates the lengths; an error reaches
the caller exactly when some risky index is out of range of the time
sequence (the `IndexError` of `time_array[...]`), and otherwise — including
every mismatch in which the time sequence is long enough — intervals are
produced silently. -/
theorem C4_mismatch_amended (vals time : List Int) (pol : PeakPolicy)
    (p : Int → Bool) :
    calculate_injury_risks vals time pol p = none ↔
      ∃ i ∈ riskyIndices p vals, time.length ≤ i := by
  obtain ⟨hjoin, hgood, -, -⟩ :=
    groupConsecutive_spec _ (riskyIndices_pairwise p vals)
  unfold calculate_injury_risks
  rw [extractLoop_eq_none_iff]
  constructor
  · rintro ⟨P, hP, hnone⟩
    obtain ⟨hne, hrun⟩ := hgood P hP
    obtain ⟨j, hjP, hlen⟩ := (mkInterval_eq_none_iff time vals pol hne hrun).mp hnone
    have hjR : j ∈ riskyIndices p vals := by
      rw [← hjoin]
      exact List.mem_flatten.mpr ⟨P, hP, hjP⟩
    exact ⟨j, hjR, hlen⟩
  · rintro ⟨i, hiR, hlen⟩
    have hif : i ∈ (groupConsecutive (riskyIndices p vals)).flatten := by
      rw [hjoin]; exact hiR
    obtain ⟨P, hP, hiP⟩ := List.mem_flatten.mp hif
    obtain ⟨hne, hrun⟩ := hgood P hP
    exact ⟨P, hP, (mkInterval_eq_none_iff time vals pol hne hrun).mpr ⟨i, hiP, hlen⟩⟩

theorem C4_mismatch_amended_witness :
    calculate_injury_risks [5, 1] [] PeakPolicy.maxSigned
      (fun v => decide (3 < v)) = none :=
  (C4_mismatch_amended [5, 1] [] PeakPolicy.maxSigned
    (fun v => decide (3 < v))).mpr ⟨0, by decide, by decide⟩

/-- C5: on values [1,2,11,12,13,2,1] with times [0,1,2,3,4,5,6] and the
predicate v > 10, the extraction returns exactly one interval with start
time 2, end time 4, duration 2, and peak 13. -/
theorem C5_example_single_interval :
    calculate_injury_risks [1, 2, 11, 12, 13, 2, 1] [0, 1, 2, 3, 4, 5, 6]
      PeakPolicy.maxSigned (fun v => decide (10 < v)) =
      some [{ start_time := 2, end_time := 4, duration := 2, peak := 13 }] := by
  decide

/-- C6: on values [-20,-5,-15] with times [0,1,2] and the predicate v < -10,
the extraction returns exactly two single-sample intervals with start time
equal to end time, duration 0, and peaks -20 and -15; in general a
single-index period always yields an interval with equal start and end time
and duration 0. -/
theorem C6_singleton_runs :
    (calculate_injury_risks [-20, -5, -15] [0, 1, 2] PeakPolicy.minSigned
        (fun v => decide (v < -10)) =
      some [{ start_time := 0, end_time := 0, duration := 0, peak := -20 },
        { start_time := 2, end_time := 2, duration := 0, peak := -15 }]) ∧
    ∀ (time vals : List Int) (pol : PeakPolicy) (i : Nat) (iv : RiskInterval),
      mkInterval time vals pol [i] = some iv →
      iv.start_time = iv.end_time ∧ iv.duration = 0 := by
  refine ⟨by decide, ?_⟩
  intro time vals pol i iv h
  rw [mkInterval] at h
  cases hv : time.get? i with
  | none =>
    rw [hv] at h
    cases h
  | some s =>
    rw [List.getLast_singleton, hv] at h
    rw [Option.some_inj] at h
    subst h
    exact ⟨rfl, sub_self s⟩

theorem C6_singleton_runs_witness :
    ({ start_time := 7, end_time := 7, duration := 0, peak := 5 } :
        RiskInterval).start_time =
      ({ start_time := 7, end_time := 7, duration := 0, peak := 5 } :
        RiskInterval).end_time :=
  (C6_singleton_runs.2 [7] [5] PeakPolicy.maxSigned 0
    { start_time := 7, end_time := 7, duration := 0, peak := 5 } (by decide)).1

/-- C7: when no sample satisfies the threshold predicate — in particular on
the empty series — the extraction returns the empty interval list and
signals no error. -/
theorem C7_no_violation_empty_result (vals time : List Int) (pol : PeakPolicy)
    (p : Int → Bool) (h : ∀ v ∈ vals, p v = false) :
    calculate_injury_risks vals time pol p = some [] := by
  have hR : riskyIndices p vals = [] := by
    unfold riskyIndices
    rw [List.filter_eq_nil_iff]
    intro i hi
    cases hv : vals.get? i with
    | none => simp
    | some v =>
      have := h v (List.get?_mem hv)
      simp [this]
  rw [calculate_injury_risks, hR]
  rfl

theorem C7_no_violation_empty_result_witness :
    calculate_injury_risks [1, 2] [0, 1] PeakPolicy.maxSigned
      (fun v => decide (10 < v)) = some [] :=
  C7_no_violation_empty_result [1, 2] [0, 1] PeakPolicy.maxSigned
    (fun v => decide (10 < v)) (by decide)

/-- C8: the overall-risk-level classification of `summarize_injury_risks`
and the one in the summary section of `extract_motion_risk` both equal the
claimed function of (risk count, total risk duration): High when count > 5
or duration > 2.0, otherwise Moderate when count > 2 or duration > 1.0,
otherwise Low. -/
theorem C8_risk_level_refinement (durations : List ℚ) :
    summarize_injury_risks_level durations =
      claimed_risk_level durations.length durations.sum ∧
    extract_motion_risk_level durations =
      claimed_risk_level durations.length durations.sum ∧
    summarize_injury_risks_level durations =
      extract_motion_risk_level durations := by
  cases durations with
  | nil =>
    refine ⟨?_, ?_, rfl⟩ <;>
      norm_num [summarize_injury_risks_level, extract_motion_risk_level,
        claimed_risk_level]
  | cons d ds =>
    refine ⟨?_, ?_, rfl⟩ <;>
      simp only [summarize_injury_risks_level, extract_motion_risk_level,
        claimed_risk_level, List.isEmpty_cons, Bool.false_eq_true, if_false]

/-- C9: `compute_velocity_and_acceleration` (with the default
`min_data_points = 3`) raises `ValueError` exactly when the angle sequence
has fewer than 3 data points; on any matching-length input with at least 3
points it returns the velocity and acceleration arrays without error. -/
theorem C9_velocity_acceleration_error_iff (angles time : List ℚ)
    (hlen : angles.length = time.length) :
    ((∃ e, compute_velocity_and_acceleration angles time = Except.error e) ↔
      angles.length < 3) ∧
    (3 ≤ angles.length →
      ∃ pr, compute_velocity_and_acceleration angles time = Except.ok pr) := by
  by_cases h3 : angles.length < 3
  · constructor
    · rw [compute_velocity_and_acceleration, if_pos h3]
      exact iff_of_true ⟨_, rfl⟩ h3
    · intro h; omega
  · obtain ⟨hok1, hlen1⟩ := np_gradient_ok angles time hlen (by omega)
    obtain ⟨hok2, -⟩ := np_gradient_ok (np_gradient_core angles time) time
      (by rw [hlen1, hlen]) (by omega)
    have hcomp : compute_velocity_and_acceleration angles time =
        Except.ok (np_gradient_core angles time,
          np_gradient_core (np_gradient_core angles time) time) := by
      rw [compute_velocity_and_acceleration, if_neg h3, hok1]
      show (match np_gradient (np_gradient_core angles time) time with
        | Except.error e => Except.error e
        | Except.ok accelerations =>
          Except.ok (np_gradient_core angles time, accelerations)) = _
      rw [hok2]
    rw [hcomp]
    constructor
    · apply iff_of_false ?_ h3
      rintro ⟨e, he⟩
      cases he
    · intro _
      exact ⟨_, rfl⟩

theorem C9_velocity_acceleration_error_iff_witness :
    ∃ pr, compute_velocity_and_acceleration [1, 2, 4] [0, 1, 3] =
      Except.ok pr :=
  (C9_velocity_acceleration_error_iff [1, 2, 4] [0, 1, 3] rfl).2 (by decide)

/-- C10: in the hamstring-to-quadriceps check, every zero quadriceps sample
is replaced by NaN before the ratio is formed (so no division by zero is
ever performed: every retained divisor is nonzero), and an index whose
quadriceps activation is zero never appears in any reported risk period,
because its NaN ratio compares false against the 0.6 threshold. -/
theorem C10_zero_quad_never_risky (ham quad : List ℚ) :
    (∀ q ∈ replace_zero_with_nan quad, q ≠ some 0) ∧
    ∀ i, i ∈ (groupConsecutive
        (riskyIndices hq_below_threshold (hq_series ham quad))).flatten →
      ∃ qv, quad.get? i = some qv ∧ qv ≠ 0 := by
  constructor
  · intro q hq
    obtain ⟨v, -, hv⟩ := List.mem_map.mp hq
    by_cases h0 : v = 0
    · rw [if_pos h0] at hv
      rw [← hv]
      simp
    · rw [if_neg h0] at hv
      rw [← hv]
      simpa using h0
  · intro i hif
    obtain ⟨hjoin, -, -, -⟩ := groupConsecutive_spec _
      (riskyIndices_pairwise hq_below_threshold (hq_series ham quad))
    rw [hjoin, mem_riskyIndices] at hif
    obtain ⟨r, hr, hpr⟩ := hif
    cases r with
    | none => cases hpr
    | some v =>
      rw [hq_series, get?_zipWith_eq] at hr
      cases hh : ham.get? i with
      | none => rw [hh] at hr; cases hr
      | some h =>
        cases hqo : (replace_zero_with_nan quad).get? i with
        | none => rw [hh, hqo] at hr; cases hr
        | some qopt =>
          rw [hh, hqo] at hr
          rw [replace_zero_with_nan, List.get?_map] at hqo
          cases hq : quad.get? i with
          | none => rw [hq] at hqo; cases hqo
          | some q =>
            rw [hq, Option.map_some', Option.some_inj] at hqo
            refine ⟨q, rfl, ?_⟩
            intro h0
            rw [if_pos h0] at hqo
            rw [← hqo] at hr
            simp at hr

theorem C10_zero_quad_never_risky_witness :
    ∃ qv, ([2, 0, 2] : List ℚ).get? 0 = some qv ∧ qv ≠ 0 :=
  (C10_zero_quad_never_risky [1, 1, 1] [2, 0, 2]).2 0 (by
    obtain ⟨hjoin, -, -, -⟩ := groupConsecutive_spec _
      (riskyIndices_pairwise hq_below_threshold (hq_series [1, 1, 1] [2, 0, 2]))
    rw [hjoin, mem_riskyIndices]
    refine ⟨some (1 / 2), ?_, ?_⟩
    · norm_num [hq_series, replace_zero_with_nan]
    · norm_num [hq_below_threshold])

end InjuryRisk
